import Mathlib

/-!
# intrinsics.cpp: the prefix filter over the intrinsic name table

A shallow embedding of `startswith` and of `main` from `src/intrinsics.cpp`,
and the properties of the filter they implement.

Conventions of the embedding:

* a `std::string` is the list of its bytes (`CppString`);
* an operation that can throw or touch memory outside an object returns
  `Except Fault _`, every byte read and every table access being checked;
* `int` is the 32-bit two's complement integer, held in an `Int`; a pointer
  takes 8 bytes;
* `std::cout` is the record `Stdout` of what has been written so far: the
  bytes, and the strings inserted by the executed
  `std::cout << name << std::endl` statements, one line each.
-/

namespace Intransitive

/-- One C++ `char`, as its unsigned byte value. -/
abbrev Byte := Fin 256

/-- A `std::string`: its bytes, in order. -/
abbrev CppString := List Byte

/-- The bytes of an ASCII string literal (one byte per character, its code). -/
def cstr (s : String) : CppString :=
  s.toList.map (fun c => Fin.ofNat c.toNat)

/-- What can go wrong while the program runs. -/
inductive Fault where
  /-- The exception `std::out_of_range`, thrown by `substr` when `pos > size()`. -/
  | out_of_range
  /-- A byte of a string was read at an index that is not below its size. -/
  | read_past_end
  /-- The name table was indexed outside `0 .. N-1`. -/
  | table_out_of_bounds
  deriving DecidableEq

/-- Copy `rlen` bytes of `s`, starting at index `pos`; each byte is read through
a bounds-checked access. -/
def copyBytes (s : CppString) : Nat → Nat → Except Fault CppString
  | _, 0 => .ok []
  | pos, rlen + 1 =>
    match s[pos]? with
    | none => .error .read_past_end
    | some b =>
      match copyBytes s (pos + 1) rlen with
      | .error f => .error f
      | .ok rest => .ok (b :: rest)

/-- The call `s.substr(pos, n)`: throws `out_of_range` when `pos > s.size()`,
otherwise copies `min(n, s.size() - pos)` bytes from index `pos` on. -/
def substr (s : CppString) (pos n : Nat) : Except Fault CppString :=
  if pos > s.length then .error .out_of_range
  else copyBytes s pos (min n (s.length - pos))

/-- The function `startswith` of the source:
`return base.substr(0, prefix.size()) == prefix;` -/
def startswith (base pfx : CppString) : Except Fault Bool :=
  match substr base 0 pfx.length with
  | .error f => .error f
  | .ok sub => .ok (sub == pfx)

/-- The largest `int`. -/
def INT_MAX : Int := 2147483647

/-- Conversion of an unsigned `size_t` value to `int`: the value modulo `2^32`,
read as a two's complement number in `-2^31 .. 2^31 - 1`. -/
def toInt (n : Nat) : Int :=
  if n % 4294967296 < 2147483648 then ((n % 4294967296 : Nat) : Int)
  else ((n % 4294967296 : Nat) : Int) - 4294967296

/-- The value of `sizeof(char *)`. -/
def sizeofCharPtr : Nat := 8

/-- The value of `sizeof(IntrinsicNameTable)`: one pointer for each entry. -/
def sizeofTable (IntrinsicNameTable : List CppString) : Nat :=
  IntrinsicNameTable.length * sizeofCharPtr

/-- The entry count of `main`:
`int num_intrinsics = sizeof(IntrinsicNameTable) / sizeof(char *);` -/
def num_intrinsics (IntrinsicNameTable : List CppString) : Int :=
  toInt (sizeofTable IntrinsicNameTable / sizeofCharPtr)

/-- The byte sequence written by `std::endl`: one line terminator. -/
def endl : CppString := [10]

/-- The standard output stream: the strings written as lines so far, and the
bytes that make up the output. -/
structure Stdout where
  /-- The strings inserted so far, one for each executed output statement. -/
  lines : List CppString
  /-- The bytes written so far. -/
  text : CppString
  deriving DecidableEq

/-- The statement `std::cout << name << std::endl;`: the bytes of `name`, then
the line terminator. -/
def writeLine (cout : Stdout) (name : CppString) : Stdout :=
  { lines := cout.lines ++ [name], text := cout.text ++ name ++ endl }

/-- The access `IntrinsicNameTable[ID]`, converted to a `std::string`. -/
def tableAt (IntrinsicNameTable : List CppString) (ID : Int) : Except Fault CppString :=
  if ID < 0 then .error .table_out_of_bounds
  else
    match IntrinsicNameTable[ID.toNat]? with
    | none => .error .table_out_of_bounds
    | some name => .ok name

/-- The scan loop of `main`, from the counter value `ID` on, with the lines
written so far in `cout` and with `num` the value of `num_intrinsics`:
`for (; ID < num_intrinsics; ID++) { name = IntrinsicNameTable[ID];
if (startswith(name, pfx)) std::cout << name << std::endl; }`.
The result is the state of `cout` when the loop is left. When `ID++` runs,
`ID < num_intrinsics`, so the increment of the `int` counter cannot overflow. -/
def scan (IntrinsicNameTable : List CppString) (pfx : CppString) (num : Int) (ID : Int)
    (cout : Stdout) : Except Fault Stdout :=
  if ID < num then
    match tableAt IntrinsicNameTable ID with
    | .error f => .error f
    | .ok name =>
      match startswith name pfx with
      | .error f => .error f
      | .ok true => scan IntrinsicNameTable pfx num (ID + 1) (writeLine cout name)
      | .ok false => scan IntrinsicNameTable pfx num (ID + 1) cout
  else .ok cout
termination_by (num - ID).toNat
decreasing_by all_goals omega

/-- The scan loop of `main` as in `scan`, with a log of the counter values at
which the loop body has run, that is, at which `IntrinsicNameTable[ID]` has
been examined. -/
def scanLog (IntrinsicNameTable : List CppString) (pfx : CppString) (num : Int) (ID : Int)
    (cout : Stdout) (log : List Int) : Except Fault (Stdout × List Int) :=
  if ID < num then
    match tableAt IntrinsicNameTable ID with
    | .error f => .error f
    | .ok name =>
      match startswith name pfx with
      | .error f => .error f
      | .ok true =>
        scanLog IntrinsicNameTable pfx num (ID + 1) (writeLine cout name) (log ++ [ID])
      | .ok false => scanLog IntrinsicNameTable pfx num (ID + 1) cout (log ++ [ID])
  else .ok (cout, log)
termination_by (num - ID).toNat
decreasing_by all_goals omega

/-- The prefix compiled into `main`. -/
def llvm_x86_avx2 : CppString := cstr "llvm.x86.avx2"

/-- The function `main`, over the table and the prefix `pfx` (the program has
`pfx = "llvm.x86.avx2"`), started on an empty standard output: the exit code
and what has been written to `cout`. -/
def main (IntrinsicNameTable : List CppString) (pfx : CppString) :
    Except Fault (Int × Stdout) :=
  match scan IntrinsicNameTable pfx (num_intrinsics IntrinsicNameTable) 0 ⟨[], []⟩ with
  | .error f => .error f
  | .ok cout => .ok (0, cout)

/-- The text of a sequence of lines: each line followed by one line
terminator. -/
def linesText (lines : List CppString) : CppString :=
  lines.flatMap (fun line => line ++ endl)

deriving instance DecidableEq for Except

/-- The comparison rule in the words of the specification: the first `len(p)`
bytes of `e` exist and equal `p`. -/
def Matches (e p : CppString) : Prop :=
  p.length ≤ e.length ∧ e.take p.length = p

instance (e p : CppString) : Decidable (Matches e p) :=
  inferInstanceAs (Decidable (_ ∧ _))

/-- The operation `filterByPrefix(table, prefix)` in the words of the
specification: the entries of the table that match, in table order. -/
def filterByPrefix (T : List CppString) (p : CppString) : List CppString :=
  T.filter (fun e => decide (Matches e p))

/-- The standard output after the strings `ls` have been written to `cout` as
lines, one after the other. -/
def writeLines (cout : Stdout) (ls : List CppString) : Stdout :=
  { lines := cout.lines ++ ls, text := cout.text ++ linesText ls }

/-- The number of matching entries of `T` before index `i`: the position, in the
output, of the line written for `T[i]` when `T[i]` matches. -/
def lineIndex (T : List CppString) (p : CppString) (i : Nat) : Nat :=
  (filterByPrefix (T.take i) p).length

/-- The sentinel entry, first in `IntrinsicNameTable`. -/
def not_intrinsic : CppString := cstr "not_intrinsic"

/-- The counter values `ID, ID + 1, ..., ID + k - 1`. -/
def counterValues (ID : Int) : Nat → List Int
  | 0 => []
  | k + 1 => ID :: counterValues (ID + 1) k

/-- A table of `2^31` entries, each of them `llvm.x86.avx2`. -/
def hugeTable : List CppString := List.replicate 2147483648 llvm_x86_avx2

/-- A table of `INT_MAX` entries, each of them `llvm.x86.avx2`. -/
def fullTable : List CppString := List.replicate 2147483647 llvm_x86_avx2

/-- The table of the first concrete scenario of the specification. -/
def scenarioTable : List CppString :=
  [cstr "not_intrinsic", cstr "llvm.x86.avx2.add", cstr "llvm.x86.sse.add",
    cstr "llvm.x86.avx2.sub"]

/-! ## The pieces of `startswith` -/

theorem copyBytes_eq (s : CppString) : ∀ (rlen pos : Nat), pos + rlen ≤ s.length →
    copyBytes s pos rlen = .ok ((s.drop pos).take rlen) := by
  intro rlen
  induction rlen with
  | zero => intro pos _; simp [copyBytes]
  | succ k ih =>
    intro pos h
    have hpos : pos < s.length := by omega
    have hk := ih (pos + 1) (by omega)
    rw [copyBytes, List.getElem?_eq_getElem hpos]
    simp only [hk]
    rw [List.drop_eq_getElem_cons hpos, List.take_succ_cons]

/-- The fault model is not idle: a copy that runs over the end of the string is
reported, and so is a start position beyond the size. -/
theorem faults_are_reported :
    copyBytes (cstr "ab") 1 2 = .error .read_past_end ∧
      substr (cstr "ab") 3 1 = .error .out_of_range := by
  decide

theorem substr_zero (s : CppString) (n : Nat) : substr s 0 n = .ok (s.take n) := by
  unfold substr
  rw [if_neg (by omega), copyBytes_eq s _ 0 (by omega)]
  simp only [List.drop_zero, Nat.sub_zero]
  rcases le_total n s.length with h | h
  · rw [min_eq_left h]
  · rw [min_eq_right h, List.take_of_length_le h, List.take_of_length_le (le_refl _)]

theorem take_eq_iff_matches (e p : CppString) : e.take p.length = p ↔ Matches e p := by
  constructor
  · intro h
    refine ⟨?_, h⟩
    have := congrArg List.length h
    rw [List.length_take] at this
    omega
  · exact fun h => h.2

theorem startswith_eq (base p : CppString) :
    startswith base p = .ok (decide (Matches base p)) := by
  unfold startswith
  rw [substr_zero]
  simp only [Except.ok.injEq]
  by_cases h : Matches base p
  · simp [h, h.2]
  · have : ¬ base.take p.length = p := fun h2 => h ((take_eq_iff_matches base p).1 h2)
    simp [h, this]

theorem startswith_true_iff (base p : CppString) :
    startswith base p = .ok true ↔ Matches base p := by
  rw [startswith_eq]
  simp

theorem startswith_false_iff (base p : CppString) :
    startswith base p = .ok false ↔ ¬ Matches base p := by
  rw [startswith_eq]
  simp

theorem matches_iff_append (base p : CppString) :
    Matches base p ↔ ∃ s, base = p ++ s := by
  constructor
  · intro h
    refine ⟨base.drop p.length, ?_⟩
    conv_lhs => rw [← List.take_append_drop p.length base, h.2]
  · rintro ⟨s, rfl⟩
    exact ⟨by simp, by simp⟩

/-! ## The scan loop -/

theorem scan_unfold (T : List CppString) (p : CppString) (num ID : Int)
    (cout : Stdout) :
    scan T p num ID cout =
      if ID < num then
        match tableAt T ID with
        | .error f => .error f
        | .ok name =>
          match startswith name p with
          | .error f => .error f
          | .ok true => scan T p num (ID + 1) (writeLine cout name)
          | .ok false => scan T p num (ID + 1) cout
      else .ok cout := by
  rw [scan]

theorem writeLines_nil (cout : Stdout) : writeLines cout [] = cout := by
  simp [writeLines, linesText]

theorem writeLines_cons (cout : Stdout) (x : CppString) (ls : List CppString) :
    writeLines (writeLine cout x) ls = writeLines cout (x :: ls) := by
  simp [writeLines, writeLine, linesText]

theorem tableAt_eq (T : List CppString) (ID : Int) (h0 : 0 ≤ ID) (h : ID.toNat < T.length) :
    tableAt T ID = .ok (T.get ⟨ID.toNat, h⟩) := by
  unfold tableAt
  rw [if_neg (by omega), List.getElem?_eq_getElem h]
  rfl

/-- The loop from the counter value `ID` on writes to `cout` the matching
entries among those at the indices `ID .. num - 1`, as long as `num` does not
exceed the number of entries. -/
theorem scan_eq (T : List CppString) (p : CppString) (num : Int) (hnum : num ≤ T.length) :
    ∀ (k : Nat) (ID : Int) (cout : Stdout), 0 ≤ ID → (num - ID).toNat = k →
      scan T p num ID cout =
        .ok (writeLines cout (filterByPrefix ((T.take num.toNat).drop ID.toNat) p)) := by
  intro k
  induction k with
  | zero =>
    intro ID cout h0 hk
    have hge : ¬ ID < num := by omega
    rw [scan_unfold, if_neg hge]
    have : (T.take num.toNat).drop ID.toNat = [] := by
      apply List.drop_eq_nil_of_le
      rw [List.length_take]
      omega
    rw [this]
    show Except.ok cout = Except.ok (writeLines cout [])
    rw [writeLines_nil]
  | succ k ih =>
    intro ID cout h0 hk
    have hlt : ID < num := by omega
    have hT : ID.toNat < T.length := by omega
    have hlen : ID.toNat < (T.take num.toNat).length := by
      rw [List.length_take]; omega
    have hnext : (ID + 1).toNat = ID.toNat + 1 := by omega
    have hdrop : (T.take num.toNat).drop ID.toNat
        = T.get ⟨ID.toNat, hT⟩ :: (T.take num.toNat).drop (ID + 1).toNat := by
      rw [List.drop_eq_getElem_cons hlen, hnext, List.getElem_take]
      rfl
    rw [scan_unfold, if_pos hlt, tableAt_eq T ID h0 hT]
    dsimp only
    rw [startswith_eq, hdrop]
    generalize T.get ⟨ID.toNat, hT⟩ = x
    have hstep := fun c => ih (ID + 1) c (by omega) (by omega)
    unfold filterByPrefix
    by_cases hm : Matches x p
    · have hd : decide (Matches x p) = true := decide_eq_true hm
      rw [hd]
      dsimp only
      rw [hstep, List.filter_cons, if_pos hd, writeLines_cons]
      rfl
    · have hd : decide (Matches x p) = false := decide_eq_false hm
      rw [hd]
      dsimp only
      rw [hstep, List.filter_cons, if_neg (by rw [hd]; exact Bool.false_ne_true)]
      rfl

/-- The scan loop, run from `ID = 0` on an empty `cout` and with
`num_intrinsics` the number of entries of `T`, writes what the specification
calls `filterByPrefix(T, p)`, line by line. -/
theorem scan_table (T : List CppString) (p : CppString) :
    scan T p T.length 0 ⟨[], []⟩
      = .ok ⟨filterByPrefix T p, linesText (filterByPrefix T p)⟩ := by
  rw [scan_eq T p T.length (le_refl _) _ 0 _ (le_refl _) rfl]
  simp [writeLines]

theorem toInt_eq (n : Nat) (h : (n : Int) ≤ INT_MAX) : toInt n = n := by
  unfold toInt
  unfold INT_MAX at h
  split <;> omega

theorem num_intrinsics_eq (T : List CppString) (h : (T.length : Int) ≤ INT_MAX) :
    num_intrinsics T = T.length := by
  unfold num_intrinsics sizeofTable sizeofCharPtr
  rw [Nat.mul_div_cancel _ (by decide)]
  exact toInt_eq _ h

/-- For a table whose entry count is an `int` value, `main` runs the scan loop
with `num_intrinsics` the number of entries, and returns 0. -/
theorem main_eq (T : List CppString) (p : CppString) (h : (T.length : Int) ≤ INT_MAX) :
    main T p = .ok (0, ⟨filterByPrefix T p, linesText (filterByPrefix T p)⟩) := by
  unfold main
  rw [num_intrinsics_eq T h, scan_table]


/-! ## The output as a filtered table -/

theorem mem_filterByPrefix (T : List CppString) (p e : CppString) :
    e ∈ filterByPrefix T p ↔ e ∈ T ∧ Matches e p := by
  simp [filterByPrefix]

theorem filterByPrefix_append (A B : List CppString) (p : CppString) :
    filterByPrefix (A ++ B) p = filterByPrefix A p ++ filterByPrefix B p := by
  simp [filterByPrefix]

theorem filterByPrefix_cons_of_matches (x : CppString) (B : List CppString) (p : CppString)
    (h : Matches x p) : filterByPrefix (x :: B) p = x :: filterByPrefix B p := by
  simp [filterByPrefix, h]

theorem split_at (T : List CppString) (i : Nat) (hi : i < T.length) :
    T = T.take i ++ T.get ⟨i, hi⟩ :: T.drop (i + 1) := by
  have h : T.drop i = T.get ⟨i, hi⟩ :: T.drop (i + 1) := List.drop_eq_getElem_cons hi
  rw [← h, List.take_append_drop]

/-- When the loop has examined the indices below `i`, it has written
`lineIndex T p i` lines. -/
theorem lines_written_before (T : List CppString) (p : CppString) (i : Nat)
    (hi : i ≤ T.length) :
    ∃ c, scan T p i 0 ⟨[], []⟩ = .ok c ∧ c.lines.length = lineIndex T p i := by
  refine ⟨⟨filterByPrefix (T.take i) p, linesText (filterByPrefix (T.take i) p)⟩, ?_, rfl⟩
  rw [scan_eq T p i (by exact_mod_cast hi) _ 0 _ (le_refl _) rfl]
  simp [writeLines]

theorem getElem?_lineIndex (T : List CppString) (p : CppString) (i : Nat)
    (hi : i < T.length) (hm : Matches (T.get ⟨i, hi⟩) p) :
    (filterByPrefix T p)[lineIndex T p i]? = some (T.get ⟨i, hi⟩) := by
  have hs : filterByPrefix T p
      = filterByPrefix (T.take i) p
        ++ T.get ⟨i, hi⟩ :: filterByPrefix (T.drop (i + 1)) p := by
    conv_lhs => rw [split_at T i hi]
    rw [filterByPrefix_append, filterByPrefix_cons_of_matches _ _ _ hm]
  rw [hs]
  unfold lineIndex
  rw [List.getElem?_append_right (le_refl _), Nat.sub_self, List.getElem?_cons_zero]

theorem lineIndex_lt (T : List CppString) (p : CppString) (i j : Nat) (hij : i < j)
    (hj : j ≤ T.length) (hm : Matches (T.get ⟨i, lt_of_lt_of_le hij hj⟩) p) :
    lineIndex T p i < lineIndex T p j := by
  have hi : i < T.length := lt_of_lt_of_le hij hj
  have hpre : T.take (i + 1) <+: T.take j := List.take_prefix_take_left T hij
  have hlen := (List.IsPrefix.filter (fun e => decide (Matches e p)) hpre).length_le
  have hsucc : T.take (i + 1) = T.take i ++ [T.get ⟨i, hi⟩] := by
    rw [← List.take_concat_get T i hi, List.concat_eq_append]
    rfl
  have hcount : (filterByPrefix (T.take (i + 1)) p).length = lineIndex T p i + 1 := by
    rw [hsucc, filterByPrefix_append, filterByPrefix_cons_of_matches _ _ _ hm]
    simp [lineIndex, filterByPrefix]
  unfold lineIndex at *
  unfold filterByPrefix at *
  omega

theorem count_filterByPrefix (T : List CppString) (p e : CppString) :
    (filterByPrefix T p).count e = if Matches e p then T.count e else 0 := by
  by_cases h : Matches e p
  · rw [if_pos h]
    exact List.count_filter (by simpa using h)
  · rw [if_neg h]
    exact List.count_eq_zero_of_not_mem (fun hmem => h ((mem_filterByPrefix T p e).1 hmem).2)

theorem count_le_one_of_nodup (T : List CppString) (e : CppString) (hT : T.Nodup) :
    T.count e ≤ 1 := by
  induction T with
  | nil => simp
  | cons x l ih =>
    rw [List.nodup_cons] at hT
    rw [List.count_cons]
    by_cases hx : x = e
    · subst hx
      rw [List.count_eq_zero_of_not_mem hT.1]
      simp
    · have := ih hT.2
      simp [hx, this]

theorem count_eq_one_of_nodup (T : List CppString) (e : CppString) (hT : T.Nodup)
    (he : e ∈ T) : T.count e = 1 :=
  Nat.le_antisymm (count_le_one_of_nodup T e hT) (List.count_pos_iff.2 he)

theorem matches_nil (e : CppString) : Matches e [] :=
  ⟨Nat.zero_le _, rfl⟩

theorem filterByPrefix_nil_pattern (T : List CppString) : filterByPrefix T [] = T := by
  unfold filterByPrefix
  rw [List.filter_eq_self]
  intro e _
  exact decide_eq_true (matches_nil e)


/-! ## The loop with its log of examined indices -/

theorem scanLog_unfold (T : List CppString) (p : CppString) (num ID : Int)
    (cout : Stdout) (log : List Int) :
    scanLog T p num ID cout log =
      if ID < num then
        match tableAt T ID with
        | .error f => .error f
        | .ok name =>
          match startswith name p with
          | .error f => .error f
          | .ok true => scanLog T p num (ID + 1) (writeLine cout name) (log ++ [ID])
          | .ok false => scanLog T p num (ID + 1) cout (log ++ [ID])
      else .ok (cout, log) := by
  rw [scanLog]

/-- Dropping the log from the result of `scanLog` gives the result of `scan`. -/
theorem scanLog_fst (T : List CppString) (p : CppString) (num : Int) :
    ∀ (k : Nat) (ID : Int) (cout : Stdout) (log : List Int), (num - ID).toNat = k →
      (match scanLog T p num ID cout log with
        | .error f => .error f
        | .ok r => .ok r.1) = scan T p num ID cout := by
  intro k
  induction k with
  | zero =>
    intro ID cout log hk
    have hge : ¬ ID < num := by omega
    rw [scanLog_unfold, scan_unfold, if_neg hge, if_neg hge]
  | succ k ih =>
    intro ID cout log hk
    have hlt : ID < num := by omega
    rw [scanLog_unfold, scan_unfold, if_pos hlt, if_pos hlt]
    cases tableAt T ID with
    | error f => rfl
    | ok name =>
      dsimp only
      cases startswith name p with
      | error f => rfl
      | ok b =>
        cases b with
        | true => exact ih (ID + 1) _ _ (by omega)
        | false => exact ih (ID + 1) _ _ (by omega)

theorem counterValues_succ (ID : Int) (k : Nat) :
    counterValues ID (k + 1) = ID :: counterValues (ID + 1) k := rfl

theorem mem_counterValues (k : Nat) : ∀ (ID i : Int),
    i ∈ counterValues ID k ↔ ID ≤ i ∧ i < ID + k := by
  induction k with
  | zero => intro ID i; simp only [counterValues, List.not_mem_nil, false_iff]; omega
  | succ k ih =>
    intro ID i
    rw [counterValues_succ, List.mem_cons, ih]
    push_cast
    omega

theorem nodup_counterValues (k : Nat) : ∀ ID : Int, (counterValues ID k).Nodup := by
  induction k with
  | zero => intro ID; simp [counterValues]
  | succ k ih =>
    intro ID
    rw [counterValues_succ, List.nodup_cons, mem_counterValues]
    exact ⟨by omega, ih _⟩

theorem counterValues_zero_eq (k : Nat) : ∀ ID : Int,
    counterValues ID k = (List.range k).map (fun i => ID + Int.ofNat i) := by
  induction k with
  | zero => intro ID; rfl
  | succ k ih =>
    intro ID
    rw [counterValues_succ, ih, List.range_succ_eq_map, List.map_cons, List.map_map]
    congr 1
    · simp
    · apply List.map_congr_left
      intro i _
      simp only [Function.comp_apply, Int.ofNat_eq_coe, Nat.succ_eq_add_one]
      push_cast
      omega

/-- The loop examines the indices from `ID` up to `num - 1`, each once and in
increasing order, as long as `num` does not exceed the number of entries. -/
theorem scanLog_eq (T : List CppString) (p : CppString) (num : Int) (hnum : num ≤ T.length) :
    ∀ (k : Nat) (ID : Int) (cout : Stdout) (log : List Int), 0 ≤ ID → (num - ID).toNat = k →
      scanLog T p num ID cout log =
        .ok (writeLines cout (filterByPrefix ((T.take num.toNat).drop ID.toNat) p),
          log ++ counterValues ID k) := by
  intro k
  induction k with
  | zero =>
    intro ID cout log h0 hk
    have hge : ¬ ID < num := by omega
    rw [scanLog_unfold, if_neg hge]
    have : (T.take num.toNat).drop ID.toNat = [] := by
      apply List.drop_eq_nil_of_le
      rw [List.length_take]
      omega
    rw [this]
    show Except.ok (cout, log) = Except.ok (writeLines cout [], log ++ [])
    rw [writeLines_nil, List.append_nil]
  | succ k ih =>
    intro ID cout log h0 hk
    have hlt : ID < num := by omega
    have hT : ID.toNat < T.length := by omega
    have hlen : ID.toNat < (T.take num.toNat).length := by
      rw [List.length_take]; omega
    have hnext : (ID + 1).toNat = ID.toNat + 1 := by omega
    have hdrop : (T.take num.toNat).drop ID.toNat
        = T.get ⟨ID.toNat, hT⟩ :: (T.take num.toNat).drop (ID + 1).toNat := by
      rw [List.drop_eq_getElem_cons hlen, hnext, List.getElem_take]
      rfl
    rw [scanLog_unfold, if_pos hlt, tableAt_eq T ID h0 hT]
    dsimp only
    rw [startswith_eq, hdrop, counterValues_succ]
    generalize T.get ⟨ID.toNat, hT⟩ = x
    have hstep := fun c l => ih (ID + 1) c l (by omega) (by omega)
    unfold filterByPrefix
    by_cases hm : Matches x p
    · have hd : decide (Matches x p) = true := decide_eq_true hm
      rw [hd]
      dsimp only
      rw [hstep, List.filter_cons, if_pos hd, writeLines_cons, List.append_assoc]
      rfl
    · have hd : decide (Matches x p) = false := decide_eq_false hm
      rw [hd]
      dsimp only
      rw [hstep, List.filter_cons, if_neg (by rw [hd]; exact Bool.false_ne_true),
        List.append_assoc]
      rfl

/-! ## `main` on an arbitrary table -/

theorem toInt_le (n : Nat) : toInt n ≤ n := by
  unfold toInt
  split <;> omega

theorem num_intrinsics_le (T : List CppString) : num_intrinsics T ≤ T.length := by
  unfold num_intrinsics sizeofTable sizeofCharPtr
  rw [Nat.mul_div_cancel _ (by decide)]
  exact toInt_le _

/-- On every table `main` ends normally with exit code 0; it has written the
matching entries among the first `num_intrinsics` ones. -/
theorem main_total (T : List CppString) (p : CppString) :
    main T p
      = .ok (0, writeLines ⟨[], []⟩
          (filterByPrefix (T.take (num_intrinsics T).toNat) p)) := by
  unfold main
  rw [scan_eq T p (num_intrinsics T) (num_intrinsics_le T) _ 0 _ (le_refl _) rfl]
  rfl

theorem linesText_append (A B : List CppString) :
    linesText (A ++ B) = linesText A ++ linesText B := by
  simp [linesText]

theorem writeLines_empty (F : List CppString) :
    writeLines ⟨[], []⟩ F = ⟨F, linesText F⟩ := by
  simp [writeLines]

/-- In the text of lines that hold no line terminator there are as many line
terminators as lines. -/
theorem count_terminators (F : List CppString) (h : ∀ e ∈ F, (10 : Byte) ∉ e) :
    (linesText F).count 10 = F.length := by
  induction F with
  | nil => rfl
  | cons x F ih =>
    have hx : x.count (10 : Byte) = 0 :=
      List.count_eq_zero_of_not_mem (h x (List.mem_cons_self x F))
    have hF := ih (fun e he => h e (List.mem_cons_of_mem x he))
    have hsplit : linesText (x :: F) = x ++ endl ++ linesText F := by
      simp [linesText]
    rw [hsplit, List.count_append, List.count_append, hx, hF]
    simp [endl]
    omega

theorem filter_startswith (T : List CppString) (p : CppString) :
    T.filter (fun e => decide (startswith e p = .ok true)) = filterByPrefix T p := by
  unfold filterByPrefix
  congr 1
  funext e
  rw [decide_eq_decide]
  exact startswith_true_iff e p

theorem length_hugeTable : hugeTable.length = 2147483648 := by
  unfold hugeTable
  rw [List.length_replicate]

theorem num_intrinsics_of_length (T : List CppString) (n : Nat) (h : T.length = n) :
    num_intrinsics T = toInt n := by
  unfold num_intrinsics sizeofTable sizeofCharPtr
  rw [Nat.mul_div_cancel _ (by decide), h]

theorem toInt_wraps : toInt 2147483648 = -2147483648 := by
  decide

theorem num_intrinsics_hugeTable : num_intrinsics hugeTable = -2147483648 :=
  (num_intrinsics_of_length hugeTable 2147483648 length_hugeTable).trans toInt_wraps

theorem matches_trans (e q p : CppString) (hq : Matches e q) (hp : Matches q p) :
    Matches e p := by
  obtain ⟨s, rfl⟩ := (matches_iff_append e q).1 hq
  obtain ⟨t, rfl⟩ := (matches_iff_append q p).1 hp
  exact (matches_iff_append _ _).2 ⟨t ++ s, List.append_assoc p t s⟩

theorem filterByPrefix_idem (T : List CppString) (p : CppString) :
    filterByPrefix (filterByPrefix T p) p = filterByPrefix T p := by
  unfold filterByPrefix
  rw [List.filter_filter]
  congr 1
  funext e
  simp

theorem filterByPrefix_refine (T : List CppString) (p q : CppString) (h : Matches q p) :
    filterByPrefix (filterByPrefix T p) q = filterByPrefix T q := by
  unfold filterByPrefix
  rw [List.filter_filter]
  apply List.filter_congr
  intro e _
  by_cases hq : Matches e q
  · simp [hq, matches_trans e q p hq h]
  · simp [hq]

theorem not_intrinsic_no_match : ¬ Matches not_intrinsic llvm_x86_avx2 := by
  decide

theorem filterByPrefix_sentinel (T : List CppString) :
    filterByPrefix (not_intrinsic :: T) llvm_x86_avx2 = filterByPrefix T llvm_x86_avx2 := by
  unfold filterByPrefix
  rw [List.filter_cons, if_neg (by simpa using not_intrinsic_no_match)]

/-! ## `main` where the entry count fits, and where it wraps -/

theorem take_count_of_fits (T : List CppString) (h : (T.length : Int) ≤ INT_MAX) :
    T.take (num_intrinsics T).toNat = T := by
  rw [num_intrinsics_eq T h, Int.toNat_ofNat, List.take_length]

/-- What `main` has written: the matching entries among the first
`num_intrinsics` ones, as lines and as bytes. -/
theorem main_output (T : List CppString) (p : CppString) :
    main T p
      = .ok (0, ⟨filterByPrefix (T.take (num_intrinsics T).toNat) p,
          linesText (filterByPrefix (T.take (num_intrinsics T).toNat) p)⟩) := by
  rw [main_total, writeLines_empty]

/-- On a table of `2^31` entries the count of `main` is `-2^31`: the loop is not
entered and nothing is written. -/
theorem main_of_wrapped_count (T : List CppString) (p : CppString)
    (h : T.length = 2147483648) : main T p = .ok (0, ⟨[], []⟩) := by
  have hneg : (-2147483648 : Int).toNat = 0 := by decide
  rw [main_output, num_intrinsics_of_length T _ h, toInt_wraps, hneg, List.take_zero]
  rfl

theorem main_hugeTable (p : CppString) : main hugeTable p = .ok (0, ⟨[], []⟩) :=
  main_of_wrapped_count hugeTable p length_hugeTable

theorem out_of_main_eq {T : List CppString} {p : CppString} {a b : Stdout}
    (ha : main T p = .ok (0, a)) (hb : main T p = .ok (0, b)) : a = b := by
  rw [ha] at hb
  simp only [Except.ok.injEq, Prod.mk.injEq, true_and] at hb
  exact hb

theorem matches_self (e : CppString) : Matches e e :=
  ⟨le_refl _, List.take_length e⟩

theorem mem_hugeTable : llvm_x86_avx2 ∈ hugeTable :=
  List.mem_replicate.2 ⟨by decide, rfl⟩

theorem get_hugeTable (i : Nat) (h : i < hugeTable.length) :
    hugeTable.get ⟨i, h⟩ = llvm_x86_avx2 :=
  List.eq_of_mem_replicate (List.get_mem hugeTable i h)

theorem length_fullTable : fullTable.length = 2147483647 := by
  unfold fullTable
  rw [List.length_replicate]

theorem fullTable_fits : (fullTable.length : Int) ≤ INT_MAX := by
  rw [length_fullTable]
  decide

theorem mem_fullTable : llvm_x86_avx2 ∈ fullTable :=
  List.mem_replicate.2 ⟨by decide, rfl⟩

theorem flatMap_ne_nil_of_mem (F : List CppString) (f : CppString → CppString)
    (x : CppString) (hx : x ∈ F) (hf : f x ≠ []) : F.flatMap f ≠ [] := by
  intro h
  exact hf (List.flatMap_eq_nil_iff.1 h x hx)

/-! ## The filter contract

`main` runs the scan loop with the count `num_intrinsics`. A statement about
`main` that needs this count to be the number of entries carries the hypothesis
that the number of entries is at most `INT_MAX`; `hugeTable`, with `2^31`
entries, shows what happens beyond. A statement about
`scan T p T.length 0 ⟨[], []⟩` is about the loop run with the number of entries
as its count. -/

/-- C1, as the claim states it, fails on a table of `2^31` entries that all
match: `main` writes no line, so the entry `llvm.x86.avx2`, which starts with
the prefix, is not among the lines. -/
theorem main_misses_matches_on_hugeTable :
    main hugeTable llvm_x86_avx2 = .ok (0, ⟨[], []⟩) ∧
      ¬ ∃ out, main hugeTable llvm_x86_avx2 = .ok (0, out) ∧
        ∀ e, e ∈ out.lines ↔ e ∈ hugeTable ∧ llvm_x86_avx2.length ≤ e.length ∧
          e.take llvm_x86_avx2.length = llvm_x86_avx2 := by
  refine ⟨main_hugeTable _, ?_⟩
  rintro ⟨out, h, hall⟩
  have hout := out_of_main_eq h (main_hugeTable _)
  have hmem := (hall llvm_x86_avx2).2 ⟨mem_hugeTable, matches_self _⟩
  rw [hout] at hmem
  exact List.not_mem_nil _ hmem

/-- C1, amended: for every table `T` and prefix `p`, `main` ends normally and
every line it has written is an entry of `T` whose first `len(p)` bytes exist
and equal `p`; when `T` has at most `INT_MAX` entries, every such entry is
among the lines. -/
theorem main_lines_exact (T : List CppString) (p : CppString) :
    ∃ out, main T p = .ok (0, out) ∧
      (∀ e, e ∈ out.lines → e ∈ T ∧ p.length ≤ e.length ∧ e.take p.length = p) ∧
      ((T.length : Int) ≤ INT_MAX →
        ∀ e, e ∈ T ∧ p.length ≤ e.length ∧ e.take p.length = p → e ∈ out.lines) := by
  refine ⟨_, main_output T p, ?_, ?_⟩
  · intro e he
    have h := (mem_filterByPrefix _ p e).1 he
    exact ⟨List.mem_of_mem_take h.1, h.2⟩
  · intro hfit e he
    show e ∈ filterByPrefix (T.take (num_intrinsics T).toNat) p
    rw [take_count_of_fits T hfit]
    exact (mem_filterByPrefix T p e).2 he

theorem main_lines_exact_witness :
    (scenarioTable.length : Int) ≤ INT_MAX ∧
      ∃ out, main scenarioTable llvm_x86_avx2 = .ok (0, out) ∧
        cstr "llvm.x86.avx2.sub" ∈ out.lines := by
  obtain ⟨out, h, _, hc⟩ := main_lines_exact scenarioTable llvm_x86_avx2
  exact ⟨by decide, out, h,
    hc (by decide) (cstr "llvm.x86.avx2.sub") ⟨by decide, by decide, by decide⟩⟩

/-- C2, as the claim states it, fails on a table of `2^31` entries that all
match: the entries at the indices 0 and 1 match, and `main` writes no line for
either. -/
theorem main_drops_order_on_hugeTable :
    main hugeTable llvm_x86_avx2 = .ok (0, ⟨[], []⟩) ∧
      ¬ ∃ out, main hugeTable llvm_x86_avx2 = .ok (0, out) ∧
        ∀ (i j : Nat) (hij : i < j) (hj : j < hugeTable.length),
          startswith (hugeTable.get ⟨i, hij.trans hj⟩) llvm_x86_avx2 = .ok true →
          startswith (hugeTable.get ⟨j, hj⟩) llvm_x86_avx2 = .ok true →
            lineIndex hugeTable llvm_x86_avx2 i < lineIndex hugeTable llvm_x86_avx2 j ∧
              out.lines[lineIndex hugeTable llvm_x86_avx2 i]?
                = some (hugeTable.get ⟨i, hij.trans hj⟩) ∧
              out.lines[lineIndex hugeTable llvm_x86_avx2 j]?
                = some (hugeTable.get ⟨j, hj⟩) := by
  refine ⟨main_hugeTable _, ?_⟩
  rintro ⟨out, h, hall⟩
  have hout := out_of_main_eq h (main_hugeTable _)
  have hj : 1 < hugeTable.length := by
    rw [length_hugeTable]
    decide
  have hsw : ∀ (i : Nat) (hi : i < hugeTable.length),
      startswith (hugeTable.get ⟨i, hi⟩) llvm_x86_avx2 = .ok true := by
    intro i hi
    rw [get_hugeTable i hi]
    exact (startswith_true_iff _ _).2 (matches_self _)
  have hnone : ∀ (k : Nat) (x : CppString),
      ¬ (⟨[], []⟩ : Stdout).lines[k]? = some x := by
    intro k x hk
    simp at hk
  have hline := (hall 0 1 (by decide) hj (hsw 0 _) (hsw 1 hj)).2.1
  rw [hout] at hline
  exact hnone _ _ hline

/-- C2, amended: for every table `T` the lines `main` has written are a sublist
of `T`; when `T` has at most `INT_MAX` entries, then for indices `i < j` of two
matching entries the line for `T[i]` stands before the line for `T[j]`: the
line for a matching `T[k]` is the one at position `lineIndex T p k`, after the
lines of the matching entries before index `k`. -/
theorem main_keeps_table_order (T : List CppString) (p : CppString) :
    ∃ out, main T p = .ok (0, out) ∧ out.lines.Sublist T ∧
      ((T.length : Int) ≤ INT_MAX →
        ∀ (i j : Nat) (hij : i < j) (hj : j < T.length),
          startswith (T.get ⟨i, hij.trans hj⟩) p = .ok true →
          startswith (T.get ⟨j, hj⟩) p = .ok true →
            lineIndex T p i < lineIndex T p j ∧
              out.lines[lineIndex T p i]? = some (T.get ⟨i, hij.trans hj⟩) ∧
              out.lines[lineIndex T p j]? = some (T.get ⟨j, hj⟩)) := by
  refine ⟨_, main_output T p, ?_, ?_⟩
  · exact (List.filter_sublist _).trans (List.take_sublist _ T)
  · intro hfit i j hij hj hmi hmj
    show _ ∧ (filterByPrefix (T.take (num_intrinsics T).toNat) p)[_]? = _ ∧
      (filterByPrefix (T.take (num_intrinsics T).toNat) p)[_]? = _
    rw [take_count_of_fits T hfit]
    rw [startswith_true_iff] at hmi hmj
    exact ⟨lineIndex_lt T p i j hij (le_of_lt hj) hmi,
      getElem?_lineIndex T p i (hij.trans hj) hmi, getElem?_lineIndex T p j hj hmj⟩

theorem main_keeps_table_order_witness :
    (scenarioTable.length : Int) ≤ INT_MAX ∧
      ∃ out, main scenarioTable llvm_x86_avx2 = .ok (0, out) ∧
        out.lines.Sublist scenarioTable ∧
        lineIndex scenarioTable llvm_x86_avx2 1 < lineIndex scenarioTable llvm_x86_avx2 3 ∧
        out.lines[lineIndex scenarioTable llvm_x86_avx2 1]? = some (cstr "llvm.x86.avx2.add") ∧
        out.lines[lineIndex scenarioTable llvm_x86_avx2 3]? = some (cstr "llvm.x86.avx2.sub") := by
  obtain ⟨out, h, hs, ho⟩ := main_keeps_table_order scenarioTable llvm_x86_avx2
  exact ⟨by decide, out, h, hs,
    ho (by decide) 1 3 (by decide) (by decide) (by decide) (by decide)⟩

/-- C3, as the claim states it, fails on a table of `2^31` entries that all
match: `llvm.x86.avx2` starts with the prefix and occurs `2^31` times in the
table, and not once in what `main` writes. -/
theorem main_loses_occurrences_on_hugeTable :
    main hugeTable llvm_x86_avx2 = .ok (0, ⟨[], []⟩) ∧
      hugeTable.count llvm_x86_avx2 = 2147483648 ∧
      ¬ ∃ out, main hugeTable llvm_x86_avx2 = .ok (0, out) ∧
        ∀ e, out.lines.count e
          = if startswith e llvm_x86_avx2 = .ok true then hugeTable.count e else 0 := by
  have hcount : hugeTable.count llvm_x86_avx2 = 2147483648 :=
    List.count_replicate_self _ _
  refine ⟨main_hugeTable _, hcount, ?_⟩
  rintro ⟨out, h, hall⟩
  have hout := out_of_main_eq h (main_hugeTable _)
  have hc := hall llvm_x86_avx2
  rw [if_pos ((startswith_true_iff _ _).2 (matches_self _)), hcount, hout] at hc
  exact absurd hc (by decide)

/-- C3, amended: for every table `T` with pairwise distinct entries the lines
`main` has written hold no duplicates; when `T` has at most `INT_MAX` entries,
a string `e` occurs in the lines as often as in `T` when `e` starts with `p`,
and not at all otherwise, so every matching entry of a table with pairwise
distinct entries occurs in the lines exactly once. -/
theorem main_counts (T : List CppString) (p : CppString) :
    ∃ out, main T p = .ok (0, out) ∧
      (T.Nodup → out.lines.Nodup) ∧
      ((T.length : Int) ≤ INT_MAX →
        (∀ e, out.lines.count e = if startswith e p = .ok true then T.count e else 0) ∧
        (T.Nodup → ∀ e ∈ T, startswith e p = .ok true → out.lines.count e = 1)) := by
  refine ⟨_, main_output T p, ?_, ?_⟩
  · intro hT
    exact ((List.take_sublist _ T).nodup hT).filter _
  · intro hfit
    show (∀ e, (filterByPrefix (T.take (num_intrinsics T).toNat) p).count e = _) ∧
      (T.Nodup → ∀ e ∈ T, startswith e p = .ok true →
        (filterByPrefix (T.take (num_intrinsics T).toNat) p).count e = 1)
    rw [take_count_of_fits T hfit]
    have hcount : ∀ e, (filterByPrefix T p).count e
        = if startswith e p = .ok true then T.count e else 0 := by
      intro e
      rw [count_filterByPrefix]
      simp only [startswith_true_iff]
    refine ⟨hcount, fun hT e he hm => ?_⟩
    rw [hcount, if_pos hm]
    exact count_eq_one_of_nodup T e hT he

theorem main_counts_witness :
    (scenarioTable.length : Int) ≤ INT_MAX ∧ scenarioTable.Nodup ∧
      ∃ out, main scenarioTable llvm_x86_avx2 = .ok (0, out) ∧
        out.lines.Nodup ∧ out.lines.count (cstr "llvm.x86.avx2.add") = 1 := by
  obtain ⟨out, h, hn, hc⟩ := main_counts scenarioTable llvm_x86_avx2
  have hnd : scenarioTable.Nodup := by decide
  exact ⟨by decide, hnd, out, h, hn hnd,
    (hc (by decide)).2 hnd _ (by decide) (by decide)⟩

/-- C4: an entry shorter than the prefix is rejected by `startswith`, and the
scan loop never writes it, whatever the table. -/
theorem startswith_shorter_entry (e p : CppString) (h : e.length < p.length) :
    startswith e p = .ok false ∧
      ∀ T : List CppString, ∃ out, scan T p T.length 0 ⟨[], []⟩ = .ok out ∧ e ∉ out.lines := by
  have hno : ¬ Matches e p := fun hm => absurd hm.1 (by omega)
  refine ⟨(startswith_false_iff e p).2 hno, fun T => ?_⟩
  exact ⟨_, scan_table T p, fun hmem => hno ((mem_filterByPrefix T p e).1 hmem).2⟩

theorem startswith_shorter_entry_witness :
    ([] : CppString).length < llvm_x86_avx2.length ∧
      startswith [] llvm_x86_avx2 = .ok false :=
  ⟨by decide, (startswith_shorter_entry [] llvm_x86_avx2 (by decide)).1⟩

/-- C5: for every pair of strings `startswith` returns a boolean: the `substr`
call it makes neither throws `out_of_range` (the start position 0 is at most
`base.size()`) nor reads a byte past the end of `base` (it copies the bytes at
the indices below `min(prefix.size(), base.size())`). -/
theorem startswith_never_fails (base p : CppString) :
    (∃ b, startswith base p = .ok b) ∧
      substr base 0 p.length = .ok (base.take (min p.length base.length)) ∧
      ¬ (0 > base.length) ∧ 0 + min p.length (base.length - 0) ≤ base.length := by
  refine ⟨⟨_, startswith_eq base p⟩, ?_, by omega, by omega⟩
  rw [substr_zero]
  rcases le_total p.length base.length with h | h
  · rw [min_eq_left h]
  · rw [min_eq_right h, List.take_of_length_le h, List.take_of_length_le (le_refl _)]

/-- C6: `startswith(base, prefix)` is true exactly when `base = prefix ++ s` for
some `s`, and false otherwise; a single byte among the first `len(prefix)` that
is missing or differs from the byte of `prefix` at the same index makes it
false. -/
theorem startswith_byte_exact (base p : CppString) :
    (startswith base p = .ok true ↔ ∃ s, base = p ++ s) ∧
      (startswith base p = .ok false ↔ ¬ ∃ s, base = p ++ s) ∧
      ∀ (i : Nat) (hi : i < p.length),
        base[i]? ≠ some (p.get ⟨i, hi⟩) → startswith base p = .ok false := by
  refine ⟨?_, ?_, ?_⟩
  · rw [startswith_true_iff, matches_iff_append]
  · rw [startswith_false_iff, matches_iff_append]
  · intro i hi hne
    rw [startswith_false_iff]
    intro hm
    apply hne
    have h1 : (base.take p.length)[i]? = base[i]? := List.getElem?_take_of_lt hi
    rw [← h1, hm.2, List.getElem?_eq_getElem hi]
    rfl

theorem startswith_byte_exact_witness :
    (cstr "LLVM.X86.AVX2.add")[0]? ≠ some (llvm_x86_avx2.get ⟨0, by decide⟩) ∧
      startswith (cstr "LLVM.X86.AVX2.add") llvm_x86_avx2 = .ok false :=
  ⟨by decide,
    (startswith_byte_exact (cstr "LLVM.X86.AVX2.add") llvm_x86_avx2).2.2 0 (by decide)
      (by decide)⟩

/-- C7, as the claim states it, fails on a table of `2^31` entries: with the
empty prefix `main` writes no line, not the table. -/
theorem main_empty_pattern_on_hugeTable :
    main hugeTable [] = .ok (0, ⟨[], []⟩) ∧
      main hugeTable [] ≠ .ok (0, ⟨hugeTable, linesText hugeTable⟩) := by
  refine ⟨main_hugeTable _, fun h => ?_⟩
  have hout := out_of_main_eq (main_hugeTable _) h
  have hlen := congrArg (fun c : Stdout => c.lines.length) hout
  simp only [List.length_nil] at hlen
  rw [length_hugeTable] at hlen
  exact absurd hlen (by decide)

/-- C7, amended: `startswith(e, "")` is true for every string `e`, and for every
table `T` with at most `INT_MAX` entries `main` with the empty prefix writes
all of `T`, in table order. -/
theorem main_empty_pattern_keeps_table (T : List CppString)
    (h : (T.length : Int) ≤ INT_MAX) :
    (∀ e : CppString, startswith e [] = .ok true) ∧
      main T [] = .ok (0, ⟨T, linesText T⟩) := by
  refine ⟨fun e => (startswith_true_iff e []).2 (matches_nil e), ?_⟩
  rw [main_eq T [] h, filterByPrefix_nil_pattern]

theorem main_empty_pattern_keeps_table_witness :
    (scenarioTable.length : Int) ≤ INT_MAX ∧
      main scenarioTable [] = .ok (0, ⟨scenarioTable, linesText scenarioTable⟩) :=
  ⟨by decide, (main_empty_pattern_keeps_table scenarioTable (by decide)).2⟩

/-- C8: on the empty table `main` counts 0 entries, its scan loop writes no
line, and it ends normally, for every prefix. -/
theorem empty_table_no_lines (p : CppString) :
    num_intrinsics [] = 0 ∧ scan [] p 0 0 ⟨[], []⟩ = .ok ⟨[], []⟩ ∧
      main [] p = .ok (0, ⟨[], []⟩) := by
  refine ⟨by decide, ?_, ?_⟩
  · exact scan_table [] p
  · exact main_eq [] p (by decide)

/-- C9: on the table `not_intrinsic`, `llvm.x86.avx2.add`, `llvm.x86.sse.add`,
`llvm.x86.avx2.sub` the program writes exactly the two lines
`llvm.x86.avx2.add` and `llvm.x86.avx2.sub`, in this order. -/
theorem scenario_two_lines :
    main scenarioTable llvm_x86_avx2
      = .ok (0, ⟨[cstr "llvm.x86.avx2.add", cstr "llvm.x86.avx2.sub"],
          cstr "llvm.x86.avx2.add\nllvm.x86.avx2.sub\n"⟩) := by
  rw [main_eq _ _ (by decide)]
  decide

/-- C10: on the table `not_intrinsic`, `abc` the program writes no line. -/
theorem scenario_no_lines :
    main [cstr "not_intrinsic", cstr "abc"] llvm_x86_avx2 = .ok (0, ⟨[], []⟩) := by
  rw [main_eq _ _ (by decide)]
  decide

/-! ## The output stream, termination and the entry count -/

/-- C11, as the claim states it, fails on a table of `2^31` entries that all
match: `main` writes no byte, while the matching entries with their line
terminators make up a text that is not empty. -/
theorem main_text_on_hugeTable :
    main hugeTable llvm_x86_avx2 = .ok (0, ⟨[], []⟩) ∧
      ¬ ∃ out, main hugeTable llvm_x86_avx2 = .ok (0, out) ∧
        out.text
          = (hugeTable.filter (fun e => decide (startswith e llvm_x86_avx2 = .ok true))).flatMap
              (fun e => e ++ endl) := by
  refine ⟨main_hugeTable _, ?_⟩
  rintro ⟨out, h, htext⟩
  have hout := out_of_main_eq h (main_hugeTable _)
  have hmem : llvm_x86_avx2
      ∈ hugeTable.filter (fun e => decide (startswith e llvm_x86_avx2 = .ok true)) :=
    List.mem_filter.2
      ⟨mem_hugeTable, decide_eq_true ((startswith_true_iff _ _).2 (matches_self _))⟩
  have hne := flatMap_ne_nil_of_mem _ (fun e => e ++ endl) llvm_x86_avx2 hmem (by decide)
  rw [hout] at htext
  exact hne htext.symm

/-- C11, amended: for every table `T` with at most `INT_MAX` entries the text
`main` writes to standard output is the concatenation, in table order, of each
matching entry followed by one line terminator, and nothing else; when no entry
holds a line terminator, the text holds as many line terminators as there are
matching entries. -/
theorem main_text_exact (T : List CppString) (p : CppString)
    (h : (T.length : Int) ≤ INT_MAX) :
    ∃ out, main T p = .ok (0, out) ∧
      out.text = (T.filter (fun e => decide (startswith e p = .ok true))).flatMap
          (fun e => e ++ endl) ∧
      ((∀ e ∈ T, (10 : Byte) ∉ e) →
        out.text.count 10
          = (T.filter (fun e => decide (startswith e p = .ok true))).length) := by
  refine ⟨_, main_eq T p h, ?_, ?_⟩
  · rw [filter_startswith]
    rfl
  · intro hno
    rw [filter_startswith]
    apply count_terminators
    intro e he
    exact hno e ((mem_filterByPrefix T p e).1 he).1

theorem main_text_exact_witness :
    (scenarioTable.length : Int) ≤ INT_MAX ∧ (∀ e ∈ scenarioTable, (10 : Byte) ∉ e) ∧
      ∃ out, main scenarioTable llvm_x86_avx2 = .ok (0, out) ∧
        out.text = cstr "llvm.x86.avx2.add\nllvm.x86.avx2.sub\n" ∧
        out.text.count 10 = 2 := by
  have hno : ∀ e ∈ scenarioTable, (10 : Byte) ∉ e := by decide
  obtain ⟨out, h, ht, hc⟩ := main_text_exact scenarioTable llvm_x86_avx2 (by decide)
  refine ⟨by decide, hno, out, h, ?_, ?_⟩
  · rw [ht]
    decide
  · rw [hc hno]
    decide

/-- C12, as the claim states it, fails on a table of `2^31` entries: the loop
that `main` runs stops at once and examines no index, not each index once. -/
theorem main_examines_nothing_on_hugeTable :
    scanLog hugeTable llvm_x86_avx2 (num_intrinsics hugeTable) 0 ⟨[], []⟩ []
        = .ok (⟨[], []⟩, []) ∧
      ¬ ∃ out, scanLog hugeTable llvm_x86_avx2 (num_intrinsics hugeTable) 0 ⟨[], []⟩ []
        = .ok (out, (List.range hugeTable.length).map Int.ofNat) := by
  have hlog : scanLog hugeTable llvm_x86_avx2 (num_intrinsics hugeTable) 0 ⟨[], []⟩ []
      = .ok (⟨[], []⟩, []) := by
    rw [num_intrinsics_hugeTable, scanLog_unfold, if_neg (by decide)]
  refine ⟨hlog, ?_⟩
  rintro ⟨out, h⟩
  rw [hlog] at h
  simp only [Except.ok.injEq, Prod.mk.injEq] at h
  have hlen := congrArg List.length h.2
  rw [List.length_map, List.length_range, length_hugeTable] at hlen
  exact absurd hlen (by decide)

/-- C12, amended: on every table, a finite sequence of strings, `main` ends
normally with a well-defined output; when the table has at most `INT_MAX`
entries, the loop that `main` runs has examined the indices `0, 1, ..., N - 1`,
once each and in this order, when it stops with this output. -/
theorem main_scan_terminates (T : List CppString) (p : CppString) :
    ∃ out, main T p = .ok (0, out) ∧
      ((T.length : Int) ≤ INT_MAX →
        scanLog T p (num_intrinsics T) 0 ⟨[], []⟩ []
          = .ok (out, (List.range T.length).map Int.ofNat)) := by
  refine ⟨_, main_output T p, fun hfit => ?_⟩
  rw [take_count_of_fits T hfit, num_intrinsics_eq T hfit,
    scanLog_eq T p T.length (le_refl _) _ 0 _ [] (le_refl _) rfl, counterValues_zero_eq]
  simp [writeLines]

theorem main_scan_terminates_witness :
    (scenarioTable.length : Int) ≤ INT_MAX ∧
      ∃ out, main scenarioTable llvm_x86_avx2 = .ok (0, out) ∧
        scanLog scenarioTable llvm_x86_avx2 (num_intrinsics scenarioTable) 0 ⟨[], []⟩ []
          = .ok (out, [0, 1, 2, 3]) := by
  obtain ⟨out, h, hl⟩ := main_scan_terminates scenarioTable llvm_x86_avx2
  exact ⟨by decide, out, h, hl (by decide)⟩

/-- C13, as the claim states it, fails on a table of `2^31` entries: the count
that `main` computes is `-2^31`, not the number of entries, and the loop
examines no index. -/
theorem count_wraps_on_hugeTable :
    num_intrinsics hugeTable ≠ hugeTable.length ∧
      num_intrinsics hugeTable = -2147483648 ∧
      scanLog hugeTable llvm_x86_avx2 (num_intrinsics hugeTable) 0 ⟨[], []⟩ []
        = .ok (⟨[], []⟩, []) := by
  refine ⟨?_, num_intrinsics_hugeTable, ?_⟩
  · rw [num_intrinsics_hugeTable, length_hugeTable]
    decide
  · rw [num_intrinsics_hugeTable, scanLog_unfold, if_neg (by decide)]

/-- C13, amended: for a table whose number of entries `N` is at most `INT_MAX`,
the entry count that `main` computes equals `N`, and the loop run with this
count examines every index `0 .. N - 1`, once each. -/
theorem count_exact_within_int (T : List CppString) (p : CppString)
    (h : (T.length : Int) ≤ INT_MAX) :
    num_intrinsics T = T.length ∧
      ∃ out, scanLog T p (num_intrinsics T) 0 ⟨[], []⟩ []
        = .ok (out, (List.range T.length).map Int.ofNat) := by
  refine ⟨num_intrinsics_eq T h, ⟨filterByPrefix T p, linesText (filterByPrefix T p)⟩, ?_⟩
  rw [num_intrinsics_eq T h,
    scanLog_eq T p T.length (le_refl _) _ 0 _ [] (le_refl _) rfl, counterValues_zero_eq]
  simp [writeLines]

theorem count_exact_within_int_witness :
    (scenarioTable.length : Int) ≤ INT_MAX ∧ num_intrinsics scenarioTable = 4 :=
  ⟨by decide, (count_exact_within_int scenarioTable llvm_x86_avx2 (by decide)).1⟩

/-! ## Runs, the sentinel, and algebra of the filter -/

/-- C14: what a run of the scan loop writes is a function of the table and the
prefix only: there is one list of lines `F` that the run appends to `cout`
whatever `cout` held before, so a second run, after the first, writes the same
lines again. -/
theorem run_depends_on_table_and_pattern_only (T : List CppString) (p : CppString) :
    ∃ F : List CppString,
      (∀ cout : Stdout, scan T p T.length 0 cout = .ok (writeLines cout F)) ∧
      ∀ cout : Stdout, ∃ first, scan T p T.length 0 cout = .ok first ∧
        scan T p T.length 0 first = .ok (writeLines first F) := by
  have hrun : ∀ cout : Stdout,
      scan T p T.length 0 cout = .ok (writeLines cout (filterByPrefix T p)) := by
    intro cout
    rw [scan_eq T p T.length (le_refl _) _ 0 cout (le_refl _) rfl]
    simp
  exact ⟨filterByPrefix T p, hrun, fun cout => ⟨_, hrun cout, hrun _⟩⟩

/-- C15: on every table `main` ends normally and returns the exit code 0, be
there matching entries or not. -/
theorem main_returns_zero (T : List CppString) (p : CppString) :
    ∃ out, main T p = .ok (0, out) :=
  ⟨_, main_total T p⟩

/-- C16, as the claim states it, fails on the table made of the sentinel and
`INT_MAX` entries `llvm.x86.avx2`: `main` writes nothing, and without the
sentinel it writes every entry. -/
theorem main_sentinel_on_fullTable :
    main (not_intrinsic :: fullTable) llvm_x86_avx2 = .ok (0, ⟨[], []⟩) ∧
      main (not_intrinsic :: fullTable) llvm_x86_avx2 ≠ main fullTable llvm_x86_avx2 := by
  have hwrap : main (not_intrinsic :: fullTable) llvm_x86_avx2 = .ok (0, ⟨[], []⟩) :=
    main_of_wrapped_count _ _ (by rw [List.length_cons, length_fullTable])
  refine ⟨hwrap, fun h => ?_⟩
  rw [hwrap] at h
  have hout := out_of_main_eq h.symm (main_eq fullTable llvm_x86_avx2 fullTable_fits)
  have hmem : llvm_x86_avx2 ∈ filterByPrefix fullTable llvm_x86_avx2 :=
    (mem_filterByPrefix _ _ _).2 ⟨mem_fullTable, matches_self _⟩
  have hlines := congrArg Stdout.lines hout
  rw [← show ([] : List CppString) = filterByPrefix fullTable llvm_x86_avx2 from hlines]
    at hmem
  exact List.not_mem_nil _ hmem

/-- C16, amended: `startswith("not_intrinsic", "llvm.x86.avx2")` is false; on
every table that starts with the sentinel `main` never writes the line
`not_intrinsic`; and when this table has at most `INT_MAX` entries, `main`
writes on it what it writes on the table without the sentinel. -/
theorem sentinel_is_ordinary (T : List CppString) :
    startswith not_intrinsic llvm_x86_avx2 = .ok false ∧
      (∃ out, main (not_intrinsic :: T) llvm_x86_avx2 = .ok (0, out) ∧
        not_intrinsic ∉ out.lines) ∧
      (((not_intrinsic :: T).length : Int) ≤ INT_MAX →
        main (not_intrinsic :: T) llvm_x86_avx2 = main T llvm_x86_avx2) := by
  have hnot : ∀ L : List CppString, not_intrinsic ∉ filterByPrefix L llvm_x86_avx2 :=
    fun L hmem => not_intrinsic_no_match ((mem_filterByPrefix L _ _).1 hmem).2
  refine ⟨(startswith_false_iff _ _).2 not_intrinsic_no_match,
    ⟨_, main_output _ _, hnot _⟩, ?_⟩
  intro h
  have hT : (T.length : Int) ≤ INT_MAX := by
    rw [List.length_cons] at h
    push_cast at h
    omega
  rw [main_eq _ _ h, main_eq _ _ hT, filterByPrefix_sentinel]

theorem sentinel_is_ordinary_witness :
    (scenarioTable.length : Int) ≤ INT_MAX ∧
      main scenarioTable llvm_x86_avx2
        = main [cstr "llvm.x86.avx2.add", cstr "llvm.x86.sse.add", cstr "llvm.x86.avx2.sub"]
            llvm_x86_avx2 :=
  ⟨by decide,
    (sentinel_is_ordinary
      [cstr "llvm.x86.avx2.add", cstr "llvm.x86.sse.add", cstr "llvm.x86.avx2.sub"]).2.2
      (by decide)⟩

/-- C17, as the claim states it, fails when one entry is appended to a table of
`INT_MAX` entries `llvm.x86.avx2`: on the longer table `main` writes nothing,
not the lines of the first table followed by the line of the appended entry. -/
theorem main_append_on_fullTable :
    main (fullTable ++ [llvm_x86_avx2]) llvm_x86_avx2 = .ok (0, ⟨[], []⟩) ∧
      ¬ ∃ o1 o2, main fullTable llvm_x86_avx2 = .ok (0, o1) ∧
        main [llvm_x86_avx2] llvm_x86_avx2 = .ok (0, o2) ∧
        main (fullTable ++ [llvm_x86_avx2]) llvm_x86_avx2
          = .ok (0, ⟨o1.lines ++ o2.lines, o1.text ++ o2.text⟩) := by
  have hwrap : main (fullTable ++ [llvm_x86_avx2]) llvm_x86_avx2 = .ok (0, ⟨[], []⟩) :=
    main_of_wrapped_count _ _
      (by rw [List.length_append, length_fullTable, List.length_singleton])
  refine ⟨hwrap, ?_⟩
  rintro ⟨o1, o2, h1, _, h3⟩
  have ho1 := out_of_main_eq h1 (main_eq fullTable llvm_x86_avx2 fullTable_fits)
  have hall := congrArg Stdout.lines (out_of_main_eq hwrap h3)
  have hnil : o1.lines = [] := (List.append_eq_nil.1 hall.symm).1
  have hmem : llvm_x86_avx2 ∈ filterByPrefix fullTable llvm_x86_avx2 :=
    (mem_filterByPrefix _ _ _).2 ⟨mem_fullTable, matches_self _⟩
  rw [ho1] at hnil
  rw [show filterByPrefix fullTable llvm_x86_avx2 = [] from hnil] at hmem
  exact List.not_mem_nil _ hmem

/-- C17, amended: when `T1 ++ T2` has at most `INT_MAX` entries, `main` on
`T1 ++ T2` writes what it writes on `T1`, followed by what it writes on `T2`:
lines and bytes; so the lines for the entries of `T1` are the same, at the same
positions, whatever is appended to the table within this size. -/
theorem main_append (T1 T2 : List CppString) (p : CppString)
    (h : ((T1 ++ T2).length : Int) ≤ INT_MAX) :
    ∃ o1 o2, main T1 p = .ok (0, o1) ∧ main T2 p = .ok (0, o2) ∧
      main (T1 ++ T2) p = .ok (0, ⟨o1.lines ++ o2.lines, o1.text ++ o2.text⟩) := by
  have hlen : ((T1 ++ T2).length : Int) = T1.length + T2.length := by
    rw [List.length_append]
    push_cast
    rfl
  have h1 : (T1.length : Int) ≤ INT_MAX := by omega
  have h2 : (T2.length : Int) ≤ INT_MAX := by omega
  refine ⟨_, _, main_eq T1 p h1, main_eq T2 p h2, ?_⟩
  rw [main_eq _ p h, filterByPrefix_append, linesText_append]

theorem main_append_witness :
    (([cstr "not_intrinsic", cstr "llvm.x86.avx2.add"]
        ++ [cstr "llvm.x86.sse.add", cstr "llvm.x86.avx2.sub"]).length : Int) ≤ INT_MAX ∧
      ∃ o1 o2,
        main [cstr "not_intrinsic", cstr "llvm.x86.avx2.add"] llvm_x86_avx2 = .ok (0, o1) ∧
        main [cstr "llvm.x86.sse.add", cstr "llvm.x86.avx2.sub"] llvm_x86_avx2 = .ok (0, o2) ∧
        main ([cstr "not_intrinsic", cstr "llvm.x86.avx2.add"]
            ++ [cstr "llvm.x86.sse.add", cstr "llvm.x86.avx2.sub"]) llvm_x86_avx2
          = .ok (0, ⟨o1.lines ++ o2.lines, o1.text ++ o2.text⟩) :=
  ⟨by decide, main_append _ _ llvm_x86_avx2 (by decide)⟩

/-- C18: the scan loop, run with the prefix `p` on the lines it has written for
`T` and `p`, writes these lines again, unchanged. -/
theorem refilter_unchanged (T : List CppString) (p : CppString) :
    ∃ out, scan T p T.length 0 ⟨[], []⟩ = .ok out ∧
      scan out.lines p out.lines.length 0 ⟨[], []⟩ = .ok out := by
  refine ⟨_, scan_table T p, ?_⟩
  rw [scan_table, filterByPrefix_idem]

/-- C19: when `startswith(q, p)` holds, every entry that `q` matches is matched by
`p`, the lines written for `q` are a sublist of the lines written for `p`, and
they are what the scan loop writes for `q` on the lines written for `p`. -/
theorem scan_monotone (T : List CppString) (p q : CppString)
    (h : startswith q p = .ok true) :
    (∀ e, startswith e q = .ok true → startswith e p = .ok true) ∧
      ∃ op oq, scan T p T.length 0 ⟨[], []⟩ = .ok op ∧
        scan T q T.length 0 ⟨[], []⟩ = .ok oq ∧
        oq.lines.Sublist op.lines ∧
        scan op.lines q op.lines.length 0 ⟨[], []⟩ = .ok oq := by
  rw [startswith_true_iff] at h
  refine ⟨fun e he => ?_, _, _, scan_table T p, scan_table T q, ?_, ?_⟩
  · rw [startswith_true_iff] at he ⊢
    exact matches_trans e q p he h
  · show (filterByPrefix T q).Sublist (filterByPrefix T p)
    rw [← filterByPrefix_refine T p q h]
    exact List.filter_sublist _
  · rw [scan_table, filterByPrefix_refine T p q h]

theorem scan_monotone_witness :
    startswith llvm_x86_avx2 (cstr "llvm.x86") = .ok true ∧
      startswith (cstr "llvm.x86.avx2.add") llvm_x86_avx2 = .ok true ∧
      startswith (cstr "llvm.x86.avx2.add") (cstr "llvm.x86") = .ok true :=
  ⟨by decide, by decide,
    (scan_monotone scenarioTable (cstr "llvm.x86") llvm_x86_avx2 (by decide)).1 _ (by decide)⟩

end Intransitive
